import Mathlib

/-!
Shallow embedding of the commit-history miner in `src/git_logger.rs`
(lati-scanner).  Pure functions are translated directly; the git2
collaborator (repository, object database, revision walk, tree diffing,
patches) is modelled as explicit data supplied through a `Repo` record,
with every fallible collaborator call returning `Except String`.
Diagnostic messages emitted through the log macros (`debug!`, `info!`,
`warn!`, `error!`) are modelled as a `List String` component of each
result, so that claims about "emitting a diagnostic" are statable.
-/

set_option maxRecDepth 4000

namespace Lati

/-- Identity record (`User` in the source): name and email, blanks rather
than absent values. -/
structure User where
  name : String
  email : String
deriving DecidableEq

/-- Mirrors `User::new`, which takes borrowed strings and owns them. -/
def User.new (name email : String) : User := ⟨name, email⟩

/-- The serializable subset of git change kinds (`CommitChange`). -/
inductive CommitChange
  | Add
  | Rename
  | Delete
  | Modify
  | Copied
deriving DecidableEq

/-- Per-file change statistics (`FileChange`); paths are modelled as
strings. -/
structure FileChange where
  file : String
  old_file : Option String
  change : CommitChange
  lines_added : Nat
  lines_deleted : Nat
deriving DecidableEq

/-- One simplified commit log entry (`GitLogEntry`). -/
structure GitLogEntry where
  id : String
  summary : String
  parents : List String
  committer : User
  commit_time : Int
  author : User
  author_time : Int
  co_authors : List User
  file_changes : List FileChange
deriving DecidableEq

/-- The whole mined log (`GitLog`). -/
structure GitLog where
  entries : List GitLogEntry
deriving DecidableEq

/-- Mining configuration (`GitLogConfig`). -/
structure GitLogConfig where
  include_merges : Bool
deriving DecidableEq

/-- The default configuration (`DEFAULT_GIT_LOG_CONFIG`): merge commits
contribute no file changes. -/
def DEFAULT_GIT_LOG_CONFIG : GitLogConfig := ⟨false⟩

/-! ## Co-author parser

The source uses two regexes:
`CO_AUTH_LINE = (?m)^\s*Co-authored-by:(.*)$` and
`CO_AUTH_ANGLE_BRACKETS = ^(.*)<([^>]+)>$`.
Multiline matching of the first regex is equivalent to testing each
newline-separated segment: strip leading whitespace, require the literal
keyword, capture the remainder of the line verbatim.  The second regex,
applied to the untrimmed capture, matches exactly when the text ends with
a closing angle bracket whose bracketed segment is nonempty and free of
closing brackets; greediness of the leading group selects the latest
viable opening bracket.  The right-to-left scan below implements it. -/

/-- Rust regex `\s` / `str::trim` whitespace: the Unicode White_Space
set. -/
def rustWS (c : Char) : Bool :=
  c == ' ' || c == '\t' || c == '\n' || c == '\r' ||
  c.val == 0x0B || c.val == 0x0C || c.val == 0x85 || c.val == 0xA0 ||
  c.val == 0x1680 || (0x2000 ≤ c.val && c.val ≤ 0x200A) ||
  c.val == 0x2028 || c.val == 0x2029 || c.val == 0x202F ||
  c.val == 0x205F || c.val == 0x3000

/-- Rust `str::trim` on character lists: drop Unicode whitespace from
both ends. -/
def rustTrimL (cs : List Char) : List Char :=
  ((cs.dropWhile rustWS).reverse.dropWhile rustWS).reverse

/-- Rust `str::trim`. -/
def rustTrim (s : String) : String :=
  String.mk (rustTrimL s.toList)

/-- Newline segmentation of a message; the segments are the lines the
multiline anchors of `CO_AUTH_LINE` delimit. -/
def splitLines : List Char → List (List Char)
  | [] => [[]]
  | c :: rest =>
    if c = '\n' then [] :: splitLines rest
    else
      match splitLines rest with
      | [] => [[c]]
      | l :: ls => (c :: l) :: ls

/-- The literal trailer keyword. -/
def coAuthKeyword : List Char := "Co-authored-by:".toList

/-- One step of `CO_AUTH_LINE` on a single line: optional leading
whitespace, the case-sensitive keyword, then the verbatim rest of the
line. -/
def coAuthLineCapture (line : List Char) : Option (List Char) :=
  let stripped := line.dropWhile rustWS
  if coAuthKeyword.isPrefixOf stripped then
    some (stripped.drop coAuthKeyword.length)
  else none

/-- Right-to-left scan for `^(.*)<([^>]+)>$` applied to the reversed text
with the final closing bracket already removed.  `acc` holds the
candidate bracket content (in original order); hitting a closing bracket
kills the match, hitting an opening bracket with nonempty content
succeeds. -/
def angleSplit : List Char → List Char → Option (List Char × List Char)
  | _, [] => none
  | acc, c :: rest =>
    if c == '>' then none
    else if c == '<' && !acc.isEmpty then some (rest.reverse, acc)
    else angleSplit (c :: acc) rest

/-- List-level matcher for `CO_AUTH_ANGLE_BRACKETS` (`captures` giving
the two groups on success). -/
def srcAngle (cs : List Char) : Option (List Char × List Char) :=
  match cs.reverse with
  | [] => none
  | c :: rcore => if c == '>' then angleSplit [] rcore else none

/-- The co-author extractor `find_coauthors`. -/
def find_coauthors (message : String) : List User :=
  (splitLines message.toList).filterMap (fun line =>
    (coAuthLineCapture line).map (fun co_author_text =>
      match srcAngle co_author_text with
      | some (name, email) =>
        User.new (String.mk (rustTrimL name)) (String.mk (rustTrimL email))
      | none =>
        if co_author_text.contains '@' then
          User.new "" (String.mk (rustTrimL co_author_text))
        else User.new (String.mk (rustTrimL co_author_text)) ""))

/-! ### Declarative spec model of the angle-bracket tier

The following definitions are modelled from the spec's and the claim's
words rather than from the source: tier (a) matches when some position
holds an opening bracket whose bracketed remainder runs to a closing
bracket at the very end of the text, is nonempty, and contains no
closing bracket; the free-text group is greedy, so the latest viable
opening bracket wins (positions are tried from the end). -/

/-- Modelled from the spec: the tier (a) decomposition test at opening
bracket position `j` of `cs`. -/
def specAngleAt (cs : List Char) (j : Nat) : Option (List Char × List Char) :=
  match cs.drop j with
  | [] => none
  | d :: rest =>
    if d = '<' then
      match rest.reverse with
      | [] => none
      | e :: revB =>
        if e = '>' then
          if revB = [] ∨ '>' ∈ revB then none
          else some (cs.take j, revB.reverse)
        else none
    else none

/-- Modelled from the spec: the tier (a) decomposition with the greedy
(latest opening bracket) choice. -/
def specAngle (cs : List Char) : Option (List Char × List Char) :=
  ((List.range cs.length).reverse).findSome? (specAngleAt cs)

/-- Position-indexed decomposition over the text with its final closing
bracket removed; proof-internal bridge between `specAngleAt` and the
source's reversed scan. -/
def coreAngleAt (core : List Char) (j : Nat) : Option (List Char × List Char) :=
  match core.drop j with
  | [] => none
  | d :: rest =>
    if d = '<' then
      if rest = [] ∨ '>' ∈ rest then none else some (core.take j, rest)
    else none

/-- Invariant of the accumulator of `angleSplit`: no closing bracket,
and an opening bracket only as the final element. -/
def accInv (acc : List Char) : Prop :=
  '>' ∉ acc ∧ ∀ k b, acc.drop k = '<' :: b → b = []

/-- Modelled from the claim's words (the original C5 text): trim the
captured rest first, then apply the three tiers to the trimmed text. -/
def find_coauthors_claimed (message : String) : List User :=
  (splitLines message.toList).filterMap (fun line =>
    (coAuthLineCapture line).map (fun rest =>
      let t := rustTrimL rest
      match specAngle t with
      | some (name, email) =>
        User.new (String.mk (rustTrimL name)) (String.mk (rustTrimL email))
      | none =>
        if t.contains '@' then User.new "" (String.mk t)
        else User.new (String.mk t) ""))

/-- Modelled from the amended claim: the three tiers applied to the raw
(untrimmed) rest, so tier (a) requires the closing bracket to be the
very last character of the rest; trimming happens on the captured
groups and on the tier (b)/(c) outputs. -/
def find_coauthors_amended (message : String) : List User :=
  (splitLines message.toList).filterMap (fun line =>
    (coAuthLineCapture line).map (fun rest =>
      match specAngle rest with
      | some (name, email) =>
        User.new (String.mk (rustTrimL name)) (String.mk (rustTrimL email))
      | none =>
        if rest.contains '@' then User.new "" (String.mk (rustTrimL rest))
        else User.new (String.mk (rustTrimL rest)) ""))

/-! ## Delta classifier -/

/-- The collaborator's delta status set (`git2::Delta`). -/
inductive Delta
  | Unmodified
  | Added
  | Deleted
  | Modified
  | Renamed
  | Copied
  | Ignored
  | Untracked
  | Typechange
  | Unreadable
  | Conflicted
deriving DecidableEq

/-- Textual rendering of a delta status, standing in for the Rust debug
formatting used in the unhandled-status diagnostic. -/
def deltaStatusStr : Delta → String
  | Delta.Unmodified => "Unmodified"
  | Delta.Added => "Added"
  | Delta.Deleted => "Deleted"
  | Delta.Modified => "Modified"
  | Delta.Renamed => "Renamed"
  | Delta.Copied => "Copied"
  | Delta.Ignored => "Ignored"
  | Delta.Untracked => "Untracked"
  | Delta.Typechange => "Typechange"
  | Delta.Unreadable => "Unreadable"
  | Delta.Conflicted => "Conflicted"

/-- One side of a delta (`DiffFile`): the path may be absent. -/
structure DiffFile where
  path : Option String
deriving DecidableEq

/-- A file-level difference record (`DiffDelta`). -/
structure DiffDelta where
  status : Delta
  old_file : DiffFile
  new_file : DiffFile
deriving DecidableEq

/-- The classifier `summarise_delta`: maps a delta and its line counts to
an optional `FileChange`, together with the diagnostics it emits.  The
source's `path().unwrap()` is modelled by `Option.get!`. -/
def summarise_delta (delta : DiffDelta) (lines_added lines_deleted : Nat) :
    Option FileChange × List String :=
  match delta.status with
  | Delta.Added =>
    let name := delta.new_file.path.get!
    (some { file := name, old_file := none, change := CommitChange.Add,
            lines_added := lines_added, lines_deleted := lines_deleted }, [])
  | Delta.Renamed =>
    let old_name := delta.old_file.path.get!
    let new_name := delta.new_file.path.get!
    (some { file := new_name, old_file := some old_name, change := CommitChange.Rename,
            lines_added := lines_added, lines_deleted := lines_deleted }, [])
  | Delta.Deleted =>
    let name := delta.old_file.path.get!
    (some { file := name, old_file := none, change := CommitChange.Delete,
            lines_added := lines_added, lines_deleted := lines_deleted }, [])
  | Delta.Modified =>
    let name := delta.new_file.path.get!
    (some { file := name, old_file := none, change := CommitChange.Modify,
            lines_added := lines_added, lines_deleted := lines_deleted }, [])
  | Delta.Copied =>
    let old_name := delta.old_file.path.get!
    let new_name := delta.new_file.path.get!
    (some { file := new_name, old_file := some old_name, change := CommitChange.Copied,
            lines_added := lines_added, lines_deleted := lines_deleted }, [])
  | s => (none, ["Not able to handle delta of status " ++ deltaStatusStr s])

/-! ## The repository collaborator and the mining pipeline

The git2 collaborator is modelled as a record of explicit data: a
revision walk already materialised as a list of oid results, the object
database as a lookup, and tree diffing as a function yielding, per
delta, the outcome of the later `Patch::from_diff` / `line_stats`
calls.  Every fallible call is an `Except String`; a Rust panic
(`expect`/`unwrap` on a collaborator result) is modelled as an error as
well, since both abort the mining run without producing a log. -/

/-- The object kinds the object database can report (`git2::ObjectType`). -/
inductive ObjectType
  | Any
  | Bad
  | Commit
  | Tree
  | Blob
  | Tag
deriving DecidableEq

/-- Textual rendering of an object type for the skip diagnostic. -/
def objectTypeStr : ObjectType → String
  | ObjectType.Any => "any"
  | ObjectType.Bad => "bad"
  | ObjectType.Commit => "commit"
  | ObjectType.Tree => "tree"
  | ObjectType.Blob => "blob"
  | ObjectType.Tag => "tag"

/-- A commit signature (`git2::Signature`): name or email is `none` when
the underlying bytes are not valid text. -/
structure Signature where
  name : Option String
  email : Option String
  time : Int
deriving DecidableEq

/-- The data of one commit as read from the repository. -/
structure CommitData where
  id : String
  summary : Option String
  message : Option String
  parents : List String
  author : Signature
  committer : Signature
  time : Int
deriving DecidableEq

/-- Outcome of `Patch::from_diff` plus `line_stats` for one delta of a
computed diff: the from-diff call may fail (panic via `expect`), may
yield no patch (binary content), or yields a patch whose `line_stats`
either fails (panic via `expect`) or produces the
(context, added, deleted) triple. -/
inductive PatchResult
  | fromDiffErr (msg : String)
  | noPatch
  | lineStatsErr (msg : String)
  | stats (context lines_added lines_deleted : Nat)
deriving DecidableEq

/-- A computed diff: the deltas in order, each with its patch outcome. -/
abbrev Diff := List (DiffDelta × PatchResult)

/-- The object database handle: reading an object yields its kind. -/
abbrev Odb := String → Except String ObjectType

/-- The discovered repository together with the collaborator behaviour
the mining run consumes. -/
structure Repo where
  workdir : Option String
  odb : Except String Odb
  revwalk : Except String (List (Except String String))
  push_head : Except String Unit
  find_commit : String → Except String CommitData
  commit_tree : String → Except String String
  diff_tree_to_tree : Option String → String → Except String Diff
  find_similar : Diff → Except String Diff

/-- Result-collecting iteration, mirroring Rust's
`collect::<Result<Vec<_>, _>>()`: stops at the first error. -/
def collectResults (f : α → Except String β) : List α → Except String (List β)
  | [] => Except.ok []
  | x :: xs => do
    let y ← f x
    let ys ← collectResults f xs
    Except.ok (y :: ys)

/-- One delta step inside `scan_diffs`: resolve the patch outcome
(substituting zero counts and a warning when no patch is possible) and
classify the delta. -/
def scan_delta (commit : String) (parent : Option String) :
    DiffDelta × PatchResult → Except String (Option FileChange × List String)
  | (_, PatchResult.fromDiffErr msg) => Except.error msg
  | (_, PatchResult.lineStatsErr msg) => Except.error msg
  | (delta, PatchResult.noPatch) =>
    let r := summarise_delta delta 0 0
    Except.ok (r.1, ("No patch possible diffing " ++ commit ++ " -> " ++ parent.getD "none") :: r.2)
  | (delta, PatchResult.stats _ la ld) =>
    let r := summarise_delta delta la ld
    Except.ok (r.1, r.2)

/-- The diff scanner `scan_diffs`: compute the tree-to-tree diff, run
rename detection, then classify every delta with its line counts,
dropping deltas the classifier does not recognise. -/
def scan_diffs (repo : Repo) (commit_tree : String) (parent_tree : Option String)
    (commit : String) (parent : Option String) :
    Except String (List FileChange × List String) := do
  let diff0 ← repo.diff_tree_to_tree parent_tree commit_tree
  let diff ← repo.find_similar diff0
  let results ← collectResults (scan_delta commit parent) diff
  Except.ok (results.filterMap Prod.fst, (results.map Prod.snd).flatten)

/-- The per-parent step of the merge/ordinary branch of
`commit_file_changes`: look up the parent commit, resolve its tree, and
scan the diff of the commit against it. -/
def parent_changes (repo : Repo) (commit_tree : String) (commit_id : String)
    (pid : String) : Except String (List FileChange × List String) := do
  let parent ← repo.find_commit pid
  let parent_tree ← repo.commit_tree parent.id
  let r ← scan_diffs repo commit_tree (some parent_tree) commit_id (some pid)
  Except.ok (r.1, ("Getting changes for parent " ++ pid) :: r.2)

/-- The parent-selection policy `commit_file_changes`: root commits diff
against the empty tree, merge commits are skipped unless
`include_merges`, otherwise the results for every parent are
concatenated in parent order. -/
def commit_file_changes (repo : Repo) (commit : CommitData) (commit_tree : String)
    (config : GitLogConfig) : Except String (List FileChange × List String) :=
  if commit.parents.length = 0 then do
    let r ← scan_diffs repo commit_tree none commit.id none
    Except.ok (r.1, ("Commit " ++ commit.id ++ " has no parent") :: r.2)
  else if commit.parents.length > 1 && !config.include_merges then
    Except.ok ([], ["Not showing file changes for merge commit " ++ commit.id])
  else do
    let results ← collectResults (parent_changes repo commit_tree commit.id) commit.parents
    Except.ok ((results.map Prod.fst).flatten, (results.map Prod.snd).flatten)

/-- Converting a signature into a `User`, substituting the fixed
placeholders for unreadable fields (`signature_to_user`). -/
def signature_to_user (signature : Signature) : User :=
  { name := signature.name.getD "[invalid name]",
    email := signature.email.getD "[invalid email]" }

/-- The commit summariser `summarise_commit`: reads the object kind,
skips non-commits with a diagnostic, and otherwise assembles one
`GitLogEntry`. -/
def summarise_commit (repo : Repo) (odbf : Odb) (config : GitLogConfig)
    (oidResult : Except String String) :
    Except String (Option GitLogEntry × List String) := do
  let oid ← oidResult
  let kind ← odbf oid
  match kind with
  | ObjectType.Commit => do
    let commit ← repo.find_commit oid
    let author := commit.author
    let committer := commit.committer
    let author_time := author.time
    let commit_time := committer.time
    let other_time := commit.time
    let timeDiag :=
      if commit_time ≠ other_time then
        ["Commit " ++ oid ++ " time " ++ toString other_time ++
          " != commit time " ++ toString commit_time]
      else []
    let co_authors :=
      match commit.message with
      | some message => find_coauthors message
      | none => []
    let commit_tree ← repo.commit_tree commit.id
    let fc ← commit_file_changes repo commit commit_tree config
    Except.ok (some {
      id := oid,
      summary := commit.summary.getD "[no message]",
      parents := commit.parents,
      committer := signature_to_user committer,
      commit_time := commit_time,
      author := signature_to_user author,
      author_time := author_time,
      co_authors := co_authors,
      file_changes := fc.1 }, ("processing " ++ oid) :: (timeDiag ++ fc.2))
  | k => Except.ok (none, ["ignoring object type: " ++ objectTypeStr k])

/-- The mining entry point `log`: discover the repository, seed the walk
from head, summarise every emitted object, and assemble the log.  The
discovery outcome is passed in as the `Except` produced by
`Repository::discover`. -/
def log (repoResult : Except String Repo) (config : Option GitLogConfig) :
    Except String (GitLog × List String) := do
  let config := config.getD DEFAULT_GIT_LOG_CONFIG
  let repo ← repoResult
  let workdirDiag :=
    ["work dir: " ++ (match repo.workdir with
      | some w => w
      | none => "bare repository - no workdir")]
  let odbf ← repo.odb
  let walk ← repo.revwalk
  let _ ← repo.push_head
  let results ← collectResults (summarise_commit repo odbf config) walk
  Except.ok (⟨results.filterMap Prod.fst⟩, workdirDiag ++ (results.map Prod.snd).flatten)

/-! ## Vocabulary used by the verification statements -/

/-- The five delta statuses the classifier recognises. -/
def recognized : Delta → Bool
  | Delta.Added => true
  | Delta.Renamed => true
  | Delta.Deleted => true
  | Delta.Modified => true
  | Delta.Copied => true
  | _ => false

/-- The line counts actually used for a delta: the patch stats when a
patch exists, and the substituted zero counts otherwise. -/
def effective_stats : PatchResult → Nat × Nat
  | PatchResult.stats _ la ld => (la, ld)
  | _ => (0, 0)

/-- Whether the patch outcome for a delta is non-panicking (a patch with
stats, or no computable patch). -/
def patch_available : PatchResult → Bool
  | PatchResult.fromDiffErr _ => false
  | PatchResult.lineStatsErr _ => false
  | _ => true

/-- Whether a walked oid result denotes a loadable commit object. -/
def isWalkedCommit (odbf : Odb) (x : Except String String) : Bool :=
  match x with
  | Except.ok oid =>
    match odbf oid with
    | Except.ok ObjectType.Commit => true
    | _ => false
  | Except.error _ => false

/-- The log entry a walked oid contributes, if any. -/
def walkedCommitEntry (repo : Repo) (odbf : Odb) (config : GitLogConfig)
    (x : Except String String) : Option GitLogEntry :=
  match summarise_commit repo odbf config x with
  | Except.ok r => r.1
  | Except.error _ => none

/-- A repository value whose collaborator calls all fail; used to witness
statements that hold for every repository. -/
def noRepo : Repo :=
  { workdir := none,
    odb := Except.error "no object database",
    revwalk := Except.error "no revwalk",
    push_head := Except.error "no head",
    find_commit := fun _ => Except.error "no commit",
    commit_tree := fun _ => Except.error "no tree",
    diff_tree_to_tree := fun _ _ => Except.error "no diff",
    find_similar := fun _ => Except.error "no diff" }

/-- A two-parent commit used in the merge-commit witnesses. -/
def mergeCommit : CommitData :=
  { id := "m0", summary := some "merge", message := some "merge",
    parents := ["p1", "p2"],
    author := ⟨some "a", some "a@x", 10⟩,
    committer := ⟨some "c", some "c@x", 10⟩, time := 10 }

/-- A merge commit whose signatures and summary are unreadable. -/
def badSigCommit : CommitData :=
  { id := "b0", summary := none, message := none,
    parents := ["p1", "p2"],
    author := ⟨none, none, 5⟩,
    committer := ⟨none, none, 5⟩, time := 5 }

/-- A merge commit with one unreadable field in each signature and a
present summary. -/
def mixedSigCommit : CommitData :=
  { id := "x0", summary := some "mixed", message := none,
    parents := ["p1", "p2"],
    author := ⟨none, some "auth@x", 6⟩,
    committer := ⟨some "carol", none, 6⟩, time := 6 }

/-- A repository resolving the unreadable-signature commits. -/
def badSigRepo : Repo :=
  { noRepo with
    find_commit := fun oid =>
      if oid = "b0" then Except.ok badSigCommit
      else if oid = "x0" then Except.ok mixedSigCommit
      else Except.error "no commit",
    commit_tree := fun _ => Except.ok "t0" }

/-- A root commit used in the root-commit witness. -/
def rootCommit : CommitData :=
  { id := "r0", summary := some "initial", message := some "initial",
    parents := [],
    author := ⟨some "a", some "a@x", 1⟩,
    committer := ⟨some "c", some "c@x", 1⟩, time := 1 }

/-- The diff an empty-tree comparison yields in the witnesses: two added
files, one of them without a computable patch. -/
def rootDiff : Diff :=
  [(⟨Delta.Added, ⟨none⟩, ⟨some "a.txt"⟩⟩, PatchResult.stats 0 7 0),
   (⟨Delta.Added, ⟨none⟩, ⟨some "b.bin"⟩⟩, PatchResult.noPatch)]

/-- A repository whose empty-tree diff of tree `t0` is `rootDiff`. -/
def rootRepo : Repo :=
  { noRepo with
    diff_tree_to_tree := fun pt ct =>
      if pt = none && ct = "t0" then Except.ok rootDiff else Except.error "no diff",
    find_similar := fun d => Except.ok d }

/-- First parent commit of the merge witnesses. -/
def parent1 : CommitData :=
  { id := "p1", summary := some "one", message := some "one", parents := [],
    author := ⟨some "a", some "a@x", 8⟩, committer := ⟨some "c", some "c@x", 8⟩, time := 8 }

/-- Second parent commit of the merge witnesses. -/
def parent2 : CommitData :=
  { id := "p2", summary := some "two", message := some "two", parents := [],
    author := ⟨some "a", some "a@x", 9⟩, committer := ⟨some "c", some "c@x", 9⟩, time := 9 }

/-- A one-delta diff used for both parents of the merge witness, so the
same change is reported twice. -/
def mergeDiff : Diff :=
  [(⟨Delta.Modified, ⟨some "dup.txt"⟩, ⟨some "dup.txt"⟩⟩, PatchResult.stats 1 2 3)]

/-- A repository resolving the two parents of `mergeCommit` and
reporting `mergeDiff` against either parent tree. -/
def mergeRepo : Repo :=
  { noRepo with
    find_commit := fun oid =>
      if oid = "p1" then Except.ok parent1
      else if oid = "p2" then Except.ok parent2
      else Except.error "no commit",
    commit_tree := fun oid =>
      if oid = "p1" then Except.ok "tp1"
      else if oid = "p2" then Except.ok "tp2"
      else Except.error "no tree",
    diff_tree_to_tree := fun pt ct =>
      if (pt = some "tp1" || pt = some "tp2") && ct = "tm" then Except.ok mergeDiff
      else Except.error "no diff",
    find_similar := fun d => Except.ok d }

/-- The object database of the walk witness: one commit and one tag. -/
def walkOdb : Odb := fun oid =>
  if oid = "c1" then Except.ok ObjectType.Commit
  else if oid = "tag1" then Except.ok ObjectType.Tag
  else Except.error "no object"

/-- The root commit emitted by the walk witness. -/
def walkCommit : CommitData :=
  { id := "c1", summary := some "hi", message := some "hi", parents := [],
    author := ⟨some "a", some "a@x", 3⟩, committer := ⟨some "c", some "c@x", 3⟩, time := 3 }

/-- A repository whose revision walk emits one commit and one annotated
tag. -/
def walkRepo : Repo :=
  { workdir := some "w",
    odb := Except.ok walkOdb,
    revwalk := Except.ok [Except.ok "c1", Except.ok "tag1"],
    push_head := Except.ok (),
    find_commit := fun oid => if oid = "c1" then Except.ok walkCommit else Except.error "no commit",
    commit_tree := fun oid => if oid = "c1" then Except.ok "t1" else Except.error "no tree",
    diff_tree_to_tree := fun pt ct =>
      if pt = none && ct = "t1" then Except.ok [] else Except.error "no diff",
    find_similar := fun d => Except.ok d }

/-! ## C1: merge commits are invisible by default -/

/-- C1: for a merge commit (two or more parents) mined with the default
`include_merges = false`, the file-change list is empty and no diff is
computed against any parent (the result is the same for every
repository, including one whose diff calls all fail). -/
theorem merge_default_no_file_changes (repo : Repo) (commit : CommitData)
    (tree : String) (config : GitLogConfig)
    (h2 : 2 ≤ commit.parents.length) (hm : config.include_merges = false) :
    commit_file_changes repo commit tree config =
      Except.ok ([], ["Not showing file changes for merge commit " ++ commit.id]) := by
  unfold commit_file_changes
  rw [if_neg (by omega), if_pos]
  simp [hm]
  omega

/-- Witness for C1 at a concrete two-parent commit and the failing
repository. -/
theorem merge_default_no_file_changes_witness :
    2 ≤ mergeCommit.parents.length ∧ (⟨false⟩ : GitLogConfig).include_merges = false ∧
    commit_file_changes noRepo mergeCommit "t0" ⟨false⟩ =
      Except.ok ([], ["Not showing file changes for merge commit m0"]) :=
  ⟨by decide, rfl, merge_default_no_file_changes noRepo mergeCommit "t0" ⟨false⟩ (by decide) rfl⟩

/-! ## C6: previous path is present exactly for renames and copies -/

/-- C6: every `FileChange` the classifier produces has `old_file` present
iff its kind is `Rename` or `Copied`. -/
theorem previous_path_iff_rename_or_copy (delta : DiffDelta) (la ld : Nat)
    (fc : FileChange) (ds : List String)
    (h : summarise_delta delta la ld = (some fc, ds)) :
    fc.old_file.isSome = true ↔
      (fc.change = CommitChange.Rename ∨ fc.change = CommitChange.Copied) := by
  cases hst : delta.status <;> simp [summarise_delta, hst] at h <;>
    obtain ⟨h1, -⟩ := h <;> subst h1 <;> simp

/-- Witness for C6 at a concrete rename delta. -/
theorem previous_path_iff_rename_or_copy_witness :
    summarise_delta ⟨Delta.Renamed, ⟨some "old.txt"⟩, ⟨some "new.txt"⟩⟩ 4 2 =
      (some ⟨"new.txt", some "old.txt", CommitChange.Rename, 4, 2⟩, []) ∧
    ((some "old.txt" : Option String).isSome = true ↔
      (CommitChange.Rename = CommitChange.Rename ∨ CommitChange.Rename = CommitChange.Copied)) :=
  ⟨rfl, previous_path_iff_rename_or_copy ⟨Delta.Renamed, ⟨some "old.txt"⟩, ⟨some "new.txt"⟩⟩
    4 2 ⟨"new.txt", some "old.txt", CommitChange.Rename, 4, 2⟩ [] rfl⟩

/-! ## C7: the classifier is total over the five statuses and drops the
rest with a diagnostic -/

/-- C7: for each of the five recognised statuses the classifier produces
a record whose path comes from the delta's own new-file record (old-file
record for deletes) carrying the given line counts; any other status
produces no record and one diagnostic naming the unhandled status, and
the classifier never fails. -/
theorem delta_classifier_total (delta : DiffDelta) (la ld : Nat) :
    (recognized delta.status = true →
      ∃ fc, summarise_delta delta la ld = (some fc, []) ∧
        fc.file = (if delta.status = Delta.Deleted then delta.old_file.path.get!
          else delta.new_file.path.get!) ∧
        fc.lines_added = la ∧ fc.lines_deleted = ld) ∧
    (recognized delta.status = false →
      summarise_delta delta la ld =
        (none, ["Not able to handle delta of status " ++ deltaStatusStr delta.status])) := by
  cases hst : delta.status <;>
    simp [summarise_delta, hst, recognized]

/-- Witness for C7: one recognised (added) delta and one unrecognised
(typechange) delta. -/
theorem delta_classifier_total_witness :
    (recognized Delta.Added = true ∧
      ∃ fc, summarise_delta ⟨Delta.Added, ⟨none⟩, ⟨some "f.txt"⟩⟩ 5 3 = (some fc, []) ∧
        fc.file = (if (Delta.Added : Delta) = Delta.Deleted
          then (⟨none⟩ : DiffFile).path.get! else (some "f.txt" : Option String).get!) ∧
        fc.lines_added = 5 ∧ fc.lines_deleted = 3) ∧
    (recognized Delta.Typechange = false ∧
      summarise_delta ⟨Delta.Typechange, ⟨some "a"⟩, ⟨some "a"⟩⟩ 1 2 =
        (none, ["Not able to handle delta of status Typechange"])) :=
  ⟨⟨rfl, (delta_classifier_total ⟨Delta.Added, ⟨none⟩, ⟨some "f.txt"⟩⟩ 5 3).1 rfl⟩,
   ⟨rfl, (delta_classifier_total ⟨Delta.Typechange, ⟨some "a"⟩, ⟨some "a"⟩⟩ 1 2).2 rfl⟩⟩

/-! ## Helper lemmas about result collection -/

/-- Success of `collectResults` is pointwise success in order. -/
theorem collectResults_forall₂ {α β : Type} {f : α → Except String β} {l : List α}
    {rs : List β} :
    collectResults f l = Except.ok rs ↔
      List.Forall₂ (fun x r => f x = Except.ok r) l rs := by
  induction l generalizing rs with
  | nil =>
    constructor
    · intro h
      cases rs with
      | nil => exact List.Forall₂.nil
      | cons r rs => simp [collectResults] at h
    · intro h
      cases h
      rfl
  | cons x xs ih =>
    constructor
    · intro h
      cases hfx : f x with
      | error e => simp [collectResults, hfx, Bind.bind, Except.bind] at h
      | ok y =>
        cases hxs : collectResults f xs with
        | error e => simp [collectResults, hfx, hxs, Bind.bind, Except.bind] at h
        | ok ys =>
          simp [collectResults, hfx, hxs, Bind.bind, Except.bind] at h
          subst h
          exact List.Forall₂.cons hfx (ih.mp hxs)
    · intro h
      cases h with
      | cons hxr hrest =>
        simp [collectResults, hxr, Bind.bind, Except.bind, ih.mpr hrest]

/-- Every collected result comes from some input element. -/
theorem collectResults_ok_mem {α β : Type} {f : α → Except String β} {l : List α}
    {rs : List β} (h : collectResults f l = Except.ok rs) :
    ∀ r ∈ rs, ∃ x ∈ l, f x = Except.ok r := by
  induction l generalizing rs with
  | nil =>
    cases rs with
    | nil => intro r hr; cases hr
    | cons r rs => simp [collectResults] at h
  | cons x xs ih =>
    cases hfx : f x with
    | error e => simp [collectResults, hfx, Bind.bind, Except.bind] at h
    | ok y =>
      cases hxs : collectResults f xs with
      | error e => simp [collectResults, hfx, hxs, Bind.bind, Except.bind] at h
      | ok ys =>
        simp only [collectResults, hfx, hxs, Bind.bind, Except.bind] at h
        have h' := Except.ok.inj h
        subst h'
        intro r hr
        rcases List.mem_cons.mp hr with h1 | h2
        · exact ⟨x, List.mem_cons_self _ _, h1 ▸ hfx⟩
        · rcases ih hxs r h2 with ⟨x', hx', hfx'⟩
          exact ⟨x', List.mem_cons_of_mem _ hx', hfx'⟩

/-- The classifier on an added-status delta. -/
theorem summarise_delta_added {delta : DiffDelta} (la ld : Nat)
    (h : delta.status = Delta.Added) :
    summarise_delta delta la ld =
      (some ⟨delta.new_file.path.get!, none, CommitChange.Add, la, ld⟩, []) := by
  simp [summarise_delta, h]

/-! ## C3: a root commit is all additions -/

/-- C3: for a root commit (no parents) the tree is diffed against the
empty tree (the `none` parent); provided the collaborator reports only
added-status deltas for such a diff — which git guarantees when one side
is empty — every produced file change has kind `Add` and no previous
path. -/
theorem root_commit_all_adds (repo : Repo) (commit : CommitData) (tree : String)
    (config : GitLogConfig) (h0 : commit.parents = [])
    (hAdd : ∀ d0 d, repo.diff_tree_to_tree none tree = Except.ok d0 →
      repo.find_similar d0 = Except.ok d → ∀ x ∈ d, x.1.status = Delta.Added)
    (fcs : List FileChange) (ds : List String)
    (hr : commit_file_changes repo commit tree config = Except.ok (fcs, ds)) :
    ∀ fc ∈ fcs, fc.change = CommitChange.Add ∧ fc.old_file = none := by
  simp only [commit_file_changes, h0, List.length_nil, if_pos, Bind.bind, Except.bind] at hr
  cases hscan : scan_diffs repo tree none commit.id none with
  | error e => simp [hscan] at hr
  | ok r =>
    simp only [hscan] at hr
    have hfcs : fcs = r.1 := by
      have := Except.ok.inj hr
      exact (congrArg Prod.fst this).symm
    subst hfcs
    simp only [scan_diffs, Bind.bind, Except.bind] at hscan
    cases hd0 : repo.diff_tree_to_tree none tree with
    | error e => simp [hd0] at hscan
    | ok d0 =>
      simp only [hd0] at hscan
      cases hd : repo.find_similar d0 with
      | error e => simp [hd] at hscan
      | ok d =>
        simp only [hd] at hscan
        cases hcr : collectResults (scan_delta commit.id none) d with
        | error e => simp [hcr] at hscan
        | ok results =>
          simp only [hcr] at hscan
          have hr1 : r.1 = results.filterMap Prod.fst := by
            have := (Except.ok.inj hscan).symm
            exact (congrArg Prod.fst this)
          rw [hr1]
          intro fc hfc
          rcases List.mem_filterMap.mp hfc with ⟨res, hres, hfst⟩
          rcases collectResults_ok_mem hcr res hres with ⟨x, hx, hscanx⟩
          have hstatus : x.1.status = Delta.Added := hAdd d0 d hd0 hd x hx
          rcases x with ⟨delta, pr⟩
          cases pr with
          | fromDiffErr m => simp [scan_delta] at hscanx
          | lineStatsErr m => simp [scan_delta] at hscanx
          | noPatch =>
            simp only [scan_delta] at hscanx
            have hres2 := Except.ok.inj hscanx
            rw [summarise_delta_added 0 0 hstatus] at hres2
            rw [← hres2] at hfst
            simp at hfst
            rw [← hfst]
            exact ⟨rfl, rfl⟩
          | stats ctx la ld =>
            simp only [scan_delta] at hscanx
            have hres2 := Except.ok.inj hscanx
            rw [summarise_delta_added la ld hstatus] at hres2
            rw [← hres2] at hfst
            simp at hfst
            rw [← hfst]
            exact ⟨rfl, rfl⟩

/-- Witness for C3 on a concrete root commit whose empty-tree diff has
two added files. -/
theorem root_commit_all_adds_witness :
    rootCommit.parents = [] ∧
    (∃ fcs ds, commit_file_changes rootRepo rootCommit "t0" ⟨false⟩ = Except.ok (fcs, ds) ∧
      ∀ fc ∈ fcs, fc.change = CommitChange.Add ∧ fc.old_file = none) := by
  have hres : commit_file_changes rootRepo rootCommit "t0" ⟨false⟩ = Except.ok
      ([⟨"a.txt", none, CommitChange.Add, 7, 0⟩, ⟨"b.bin", none, CommitChange.Add, 0, 0⟩],
       ["Commit r0 has no parent", "No patch possible diffing r0 -> none"]) := rfl
  refine ⟨rfl, _, _, hres, ?_⟩
  exact root_commit_all_adds rootRepo rootCommit "t0" ⟨false⟩ rfl
    (by
      intro d0 d hd0 hd
      have hd0' : rootDiff = d0 := by
        simpa [rootRepo, noRepo] using hd0
      subst hd0'
      have hd' : rootDiff = d := by
        simpa [rootRepo, noRepo] using hd
      subst hd'
      decide)
    _ _ hres

/-! ## C10: unreadable signatures and missing summaries degrade to fixed
placeholders -/

/-- C10: for every commit, summarising succeeds regardless of which (if
any) signature fields or summary are unreadable, and each unreadable
field is substituted independently: an unreadable author or committer
name/email becomes the fixed placeholder string for that field alone,
and a missing summary becomes the fixed no-message string. -/
theorem invalid_signature_placeholders (repo : Repo) (odbf : Odb)
    (config : GitLogConfig) (oid : String) (commit : CommitData) (tree : String)
    (fc : List FileChange × List String)
    (hk : odbf oid = Except.ok ObjectType.Commit)
    (hc : repo.find_commit oid = Except.ok commit)
    (ht : repo.commit_tree commit.id = Except.ok tree)
    (hf : commit_file_changes repo commit tree config = Except.ok fc) :
    ∃ entry ds,
      summarise_commit repo odbf config (Except.ok oid) = Except.ok (some entry, ds) ∧
      (commit.author.name = none → entry.author.name = "[invalid name]") ∧
      (commit.author.email = none → entry.author.email = "[invalid email]") ∧
      (commit.committer.name = none → entry.committer.name = "[invalid name]") ∧
      (commit.committer.email = none → entry.committer.email = "[invalid email]") ∧
      (∀ n, commit.author.name = some n → entry.author.name = n) ∧
      (∀ e, commit.author.email = some e → entry.author.email = e) ∧
      (∀ n, commit.committer.name = some n → entry.committer.name = n) ∧
      (∀ e, commit.committer.email = some e → entry.committer.email = e) ∧
      (commit.summary = none → entry.summary = "[no message]") ∧
      (∀ s, commit.summary = some s → entry.summary = s) := by
  have key : summarise_commit repo odbf config (Except.ok oid) = Except.ok (some {
      id := oid,
      summary := commit.summary.getD "[no message]",
      parents := commit.parents,
      committer := signature_to_user commit.committer,
      commit_time := commit.committer.time,
      author := signature_to_user commit.author,
      author_time := commit.author.time,
      co_authors := match commit.message with
        | some message => find_coauthors message
        | none => [],
      file_changes := fc.1 },
      ("processing " ++ oid) ::
        ((if commit.committer.time ≠ commit.time then
            ["Commit " ++ oid ++ " time " ++ toString commit.time ++
              " != commit time " ++ toString commit.committer.time]
          else []) ++ fc.2)) := by
    simp [summarise_commit, Bind.bind, Except.bind, hk, hc, ht, hf]
  refine ⟨_, _, key, ?_, ?_, ?_, ?_, ?_, ?_, ?_, ?_, ?_, ?_⟩
  · intro h; simp [signature_to_user, h]
  · intro h; simp [signature_to_user, h]
  · intro h; simp [signature_to_user, h]
  · intro h; simp [signature_to_user, h]
  · intro n h; simp [signature_to_user, h]
  · intro e h; simp [signature_to_user, h]
  · intro n h; simp [signature_to_user, h]
  · intro e h; simp [signature_to_user, h]
  · intro h; simp [h]
  · intro s h; simp [h]

/-- Witness for C10: an all-unreadable commit gets every placeholder,
and a mixed commit gets the placeholder only in its unreadable fields
while readable fields and a present summary pass through unchanged. -/
theorem invalid_signature_placeholders_witness :
    badSigRepo.find_commit "b0" = Except.ok badSigCommit ∧
    badSigRepo.find_commit "x0" = Except.ok mixedSigCommit ∧
    (∃ entry ds,
      summarise_commit badSigRepo (fun _ => Except.ok ObjectType.Commit) ⟨false⟩
        (Except.ok "b0") = Except.ok (some entry, ds) ∧
      entry.author = ⟨"[invalid name]", "[invalid email]"⟩ ∧
      entry.committer = ⟨"[invalid name]", "[invalid email]"⟩ ∧
      entry.summary = "[no message]") ∧
    (∃ entry ds,
      summarise_commit badSigRepo (fun _ => Except.ok ObjectType.Commit) ⟨false⟩
        (Except.ok "x0") = Except.ok (some entry, ds) ∧
      entry.author = ⟨"[invalid name]", "auth@x"⟩ ∧
      entry.committer = ⟨"carol", "[invalid email]"⟩ ∧
      entry.summary = "mixed") := by
  refine ⟨by simp [badSigRepo, noRepo], by simp [badSigRepo, noRepo], ?_, ?_⟩
  · obtain ⟨entry, ds, hsum, h1, h2, h3, h4, h5, h6, h7, h8, h9, h10⟩ :=
      invalid_signature_placeholders badSigRepo (fun _ => Except.ok ObjectType.Commit)
        ⟨false⟩ "b0" badSigCommit "t0"
        ([], ["Not showing file changes for merge commit b0"])
        rfl (by simp [badSigRepo, noRepo]) rfl rfl
    refine ⟨entry, ds, hsum, ?_, ?_, h9 rfl⟩
    · have hn := h1 rfl
      have he := h2 rfl
      rw [← hn, ← he]
    · have hn := h3 rfl
      have he := h4 rfl
      rw [← hn, ← he]
  · obtain ⟨entry, ds, hsum, h1, h2, h3, h4, h5, h6, h7, h8, h9, h10⟩ :=
      invalid_signature_placeholders badSigRepo (fun _ => Except.ok ObjectType.Commit)
        ⟨false⟩ "x0" mixedSigCommit "t0"
        ([], ["Not showing file changes for merge commit x0"])
        rfl (by simp [badSigRepo, noRepo]) rfl rfl
    refine ⟨entry, ds, hsum, ?_, ?_, h10 "mixed" rfl⟩
    · have hn := h1 rfl
      have he := h6 "auth@x" rfl
      rw [← hn, ← he]
    · have hn := h7 "carol" rfl
      have he := h4 rfl
      rw [← hn, ← he]

/-! ## C8: an unavailable patch substitutes zero counts -/

/-- Under non-panicking patch outcomes, scanning classifies every delta
with its effective line counts. -/
theorem collectResults_scan_delta (cid : String) (pid : Option String) (d : Diff)
    (hav : ∀ x ∈ d, patch_available x.2 = true) :
    collectResults (scan_delta cid pid) d = Except.ok (d.map (fun x =>
      ((summarise_delta x.1 (effective_stats x.2).1 (effective_stats x.2).2).1,
        (if x.2 = PatchResult.noPatch then
          ["No patch possible diffing " ++ cid ++ " -> " ++ pid.getD "none"]
        else []) ++
          (summarise_delta x.1 (effective_stats x.2).1 (effective_stats x.2).2).2))) := by
  induction d with
  | nil => rfl
  | cons x xs ih =>
    have hx := hav x (List.mem_cons_self _ _)
    have hxs := ih (fun y hy => hav y (List.mem_cons_of_mem _ hy))
    rcases x with ⟨delta, pr⟩
    cases pr with
    | fromDiffErr m => simp [patch_available] at hx
    | lineStatsErr m => simp [patch_available] at hx
    | noPatch =>
      simp [collectResults, scan_delta, Bind.bind, Except.bind, hxs, effective_stats]
    | stats ctx la ld =>
      simp [collectResults, scan_delta, Bind.bind, Except.bind, hxs, effective_stats]

/-- C8: when a delta's line counts are unavailable (no computable
patch), the scanner substitutes `(0, 0)`, emits a diagnostic, and the
scan still succeeds; availability failures are never errors. -/
theorem missing_patch_substitutes_zero (repo : Repo) (ct : String)
    (pt : Option String) (cid : String) (pid : Option String) (d0 d : Diff)
    (hd0 : repo.diff_tree_to_tree pt ct = Except.ok d0)
    (hd : repo.find_similar d0 = Except.ok d)
    (hav : ∀ x ∈ d, patch_available x.2 = true) :
    ∃ ds, scan_diffs repo ct pt cid pid = Except.ok
      (d.filterMap (fun x =>
        (summarise_delta x.1 (effective_stats x.2).1 (effective_stats x.2).2).1), ds) ∧
      (∀ x ∈ d, x.2 = PatchResult.noPatch →
        ("No patch possible diffing " ++ cid ++ " -> " ++ pid.getD "none") ∈ ds) := by
  have hcr := collectResults_scan_delta cid pid d hav
  refine ⟨(d.map (fun x =>
      (if x.2 = PatchResult.noPatch then
        ["No patch possible diffing " ++ cid ++ " -> " ++ pid.getD "none"]
      else []) ++
        (summarise_delta x.1 (effective_stats x.2).1 (effective_stats x.2).2).2)).flatten,
    ?_, ?_⟩
  · simp only [scan_diffs, Bind.bind, Except.bind, hd0, hd, hcr]
    rw [List.filterMap_map, List.map_map]
    rfl
  · intro x hx hnp
    rw [List.mem_flatten]
    refine ⟨(if x.2 = PatchResult.noPatch then
        ["No patch possible diffing " ++ cid ++ " -> " ++ pid.getD "none"]
      else []) ++
        (summarise_delta x.1 (effective_stats x.2).1 (effective_stats x.2).2).2, ?_, ?_⟩
    · exact List.mem_map_of_mem _ hx
    · simp [hnp]

/-- Witness for C8 on the concrete empty-tree diff with a binary-like
second file. -/
theorem missing_patch_substitutes_zero_witness :
    rootRepo.diff_tree_to_tree none "t0" = Except.ok rootDiff ∧
    rootRepo.find_similar rootDiff = Except.ok rootDiff ∧
    (∀ x ∈ rootDiff, patch_available x.2 = true) ∧
    (∃ ds, scan_diffs rootRepo "t0" none "r0" none = Except.ok
      (rootDiff.filterMap (fun x =>
        (summarise_delta x.1 (effective_stats x.2).1 (effective_stats x.2).2).1), ds) ∧
      (∀ x ∈ rootDiff, x.2 = PatchResult.noPatch →
        ("No patch possible diffing " ++ "r0" ++ " -> " ++ (none : Option String).getD "none") ∈ ds)) := by
  refine ⟨rfl, rfl, by decide, ?_⟩
  exact missing_patch_substitutes_zero rootRepo "t0" none "r0" none rootDiff rootDiff
    rfl rfl (by decide)

/-! ## C2: merge commits with merges included concatenate per-parent
results -/

/-- Per-parent scanning collects into the paired results, in parent
order. -/
theorem collectResults_parent_changes (repo : Repo) (tree cid : String) :
    ∀ (pids : List String) (pres : List (CommitData × String × List FileChange × List String)),
    List.Forall₂ (fun pid pr =>
      repo.find_commit pid = Except.ok pr.1 ∧
      repo.commit_tree pr.1.id = Except.ok pr.2.1 ∧
      scan_diffs repo tree (some pr.2.1) cid (some pid) = Except.ok pr.2.2) pids pres →
    collectResults (parent_changes repo tree cid) pids = Except.ok
      ((pids.zip pres).map (fun p =>
        (p.2.2.2.1, ("Getting changes for parent " ++ p.1) :: p.2.2.2.2))) := by
  intro pids pres h
  induction h with
  | nil => rfl
  | cons hxr hrest ih =>
    obtain ⟨hfc, hct, hscan⟩ := hxr
    simp [collectResults, parent_changes, Bind.bind, Except.bind, hfc, hct, hscan, ih,
      List.zip_cons_cons]

/-- C2: for a merge commit with `include_merges = true` whose parents
each yield a commit, a tree, and a scanned diff, the file changes are
the concatenation of the per-parent results in parent order, with no
deduplication. -/
theorem merge_included_concatenates_parents (repo : Repo) (commit : CommitData)
    (tree : String) (config : GitLogConfig)
    (pres : List (CommitData × String × List FileChange × List String))
    (h2 : 2 ≤ commit.parents.length) (hm : config.include_merges = true)
    (hres : List.Forall₂ (fun pid pr =>
      repo.find_commit pid = Except.ok pr.1 ∧
      repo.commit_tree pr.1.id = Except.ok pr.2.1 ∧
      scan_diffs repo tree (some pr.2.1) commit.id (some pid) = Except.ok pr.2.2)
      commit.parents pres) :
    ∃ ds, commit_file_changes repo commit tree config =
      Except.ok ((pres.map (fun pr => pr.2.2.1)).flatten, ds) := by
  have hcr := collectResults_parent_changes repo tree commit.id commit.parents pres hres
  have hlen := hres.length_eq
  unfold commit_file_changes
  rw [if_neg (by omega), if_neg (by simp [hm])]
  refine ⟨(((commit.parents.zip pres).map (fun p =>
    (p.2.2.2.1, ("Getting changes for parent " ++ p.1) :: p.2.2.2.2))).map Prod.snd).flatten, ?_⟩
  simp only [Bind.bind, Except.bind, hcr]
  have hmap : ((commit.parents.zip pres).map (fun p =>
      (p.2.2.2.1, ("Getting changes for parent " ++ p.1) :: p.2.2.2.2))).map Prod.fst =
      pres.map (fun pr => pr.2.2.1) := by
    rw [List.map_map]
    have : (Prod.fst ∘ fun p : String × CommitData × String × List FileChange × List String =>
        (p.2.2.2.1, ("Getting changes for parent " ++ p.1) :: p.2.2.2.2)) =
        ((fun pr : CommitData × String × List FileChange × List String => pr.2.2.1) ∘ Prod.snd) := rfl
    rw [this, ← List.map_map, List.map_snd_zip _ _ (le_of_eq hlen.symm)]
  rw [hmap]

/-- Witness for C2: a two-parent merge where the same modification is
reported relative to both parents and therefore appears twice. -/
theorem merge_included_concatenates_parents_witness :
    2 ≤ mergeCommit.parents.length ∧ (⟨true⟩ : GitLogConfig).include_merges = true ∧
    (∃ ds, commit_file_changes mergeRepo mergeCommit "tm" ⟨true⟩ = Except.ok
      ([⟨"dup.txt", none, CommitChange.Modify, 2, 3⟩,
        ⟨"dup.txt", none, CommitChange.Modify, 2, 3⟩], ds)) := by
  refine ⟨by decide, rfl, ?_⟩
  exact merge_included_concatenates_parents mergeRepo mergeCommit "tm" ⟨true⟩
    [(parent1, "tp1", [⟨"dup.txt", none, CommitChange.Modify, 2, 3⟩], []),
     (parent2, "tp2", [⟨"dup.txt", none, CommitChange.Modify, 2, 3⟩], [])]
    (by decide) rfl
    (List.Forall₂.cons ⟨rfl, rfl, rfl⟩ (List.Forall₂.cons ⟨rfl, rfl, rfl⟩ List.Forall₂.nil))

/-! ## C4 and C9: walk coverage and all-or-nothing mining -/

/-- A successful summary yields an entry exactly when the walked oid is
a loadable commit object. -/
theorem summarise_ok_shape {repo : Repo} {odbf : Odb} {config : GitLogConfig}
    {x : Except String String} {r : Option GitLogEntry × List String}
    (h : summarise_commit repo odbf config x = Except.ok r) :
    r.1.isSome = isWalkedCommit odbf x := by
  cases x with
  | error e => simp [summarise_commit, Bind.bind, Except.bind] at h
  | ok oid =>
    simp only [summarise_commit, Bind.bind, Except.bind] at h
    cases hk : odbf oid with
    | error e => simp [hk] at h
    | ok kind =>
      simp only [hk] at h
      cases kind with
      | Commit =>
        cases hc : repo.find_commit oid with
        | error e => simp [hc] at h
        | ok c =>
          simp only [hc] at h
          cases ht : repo.commit_tree c.id with
          | error e => simp [ht] at h
          | ok t =>
            simp only [ht] at h
            cases hf : commit_file_changes repo c t config with
            | error e => simp [hf] at h
            | ok fc =>
              simp only [hf] at h
              have := Except.ok.inj h
              rw [← this]
              simp [isWalkedCommit, hk]
      | Any =>
        have := Except.ok.inj h
        rw [← this]; simp [isWalkedCommit, hk]
      | Bad =>
        have := Except.ok.inj h
        rw [← this]; simp [isWalkedCommit, hk]
      | Tree =>
        have := Except.ok.inj h
        rw [← this]; simp [isWalkedCommit, hk]
      | Blob =>
        have := Except.ok.inj h
        rw [← this]; simp [isWalkedCommit, hk]
      | Tag =>
        have := Except.ok.inj h
        rw [← this]; simp [isWalkedCommit, hk]

/-- If every element processes successfully, collection succeeds. -/
theorem collectResults_isOk {α β : Type} {f : α → Except String β} {l : List α}
    (hok : ∀ x ∈ l, (f x).isOk = true) : ∃ rs, collectResults f l = Except.ok rs := by
  induction l with
  | nil => exact ⟨[], rfl⟩
  | cons x xs ih =>
    have hx := hok x (List.mem_cons_self _ _)
    rcases ih (fun y hy => hok y (List.mem_cons_of_mem _ hy)) with ⟨rs, hrs⟩
    cases hfx : f x with
    | error e => rw [hfx] at hx; cases hx
    | ok y =>
      exact ⟨y :: rs, by simp [collectResults, hfx, hrs, Bind.bind, Except.bind]⟩

/-- The collected entry options flatten to the per-oid entries. -/
theorem collectResults_ok_entries {repo : Repo} {odbf : Odb} {config : GitLogConfig}
    {walk : List (Except String String)} {rs : List (Option GitLogEntry × List String)}
    (h : collectResults (summarise_commit repo odbf config) walk = Except.ok rs) :
    rs.filterMap Prod.fst = walk.filterMap (walkedCommitEntry repo odbf config) := by
  have h2 := collectResults_forall₂.mp h
  clear h
  induction h2 with
  | nil => rfl
  | @cons x r xs rs' hxr hrest ih =>
    have hwce : walkedCommitEntry repo odbf config x = r.1 := by
      simp [walkedCommitEntry, hxr]
    cases hr1 : r.1 with
    | none => simp [List.filterMap_cons, hwce, hr1, ih]
    | some e => simp [List.filterMap_cons, hwce, hr1, ih]

/-- Under per-oid success, the number of produced entries is the number
of commit-kind oids in the walk. -/
theorem entries_count {repo : Repo} {odbf : Odb} {config : GitLogConfig}
    {walk : List (Except String String)}
    (hok : ∀ x ∈ walk, (summarise_commit repo odbf config x).isOk = true) :
    (walk.filterMap (walkedCommitEntry repo odbf config)).length =
      walk.countP (isWalkedCommit odbf) := by
  induction walk with
  | nil => rfl
  | cons x xs ih =>
    have hx := hok x (List.mem_cons_self _ _)
    have ihx := ih (fun y hy => hok y (List.mem_cons_of_mem _ hy))
    cases hres : summarise_commit repo odbf config x with
    | error e => rw [hres] at hx; cases hx
    | ok r =>
      have hshape := summarise_ok_shape hres
      have hwce : walkedCommitEntry repo odbf config x = r.1 := by
        simp [walkedCommitEntry, hres]
      cases hr1 : r.1 with
      | none =>
        rw [hr1] at hshape
        simp only [List.filterMap_cons, hwce, hr1, List.countP_cons, ← hshape]
        simpa using ihx
      | some e =>
        rw [hr1] at hshape
        simp only [List.filterMap_cons, hwce, hr1, List.countP_cons, ← hshape]
        simp [ihx]

/-- C4: when every walked oid summarises successfully, mining succeeds
and the log has exactly one entry per commit-kind object, in walk
emission order; non-commit objects contribute no entry and only the
skip diagnostic, regardless of how many there are. -/
theorem log_entry_count_matches_commits (repo : Repo) (odbf : Odb)
    (config : GitLogConfig) (walk : List (Except String String))
    (hodb : repo.odb = Except.ok odbf)
    (hwalk : repo.revwalk = Except.ok walk)
    (hpush : repo.push_head = Except.ok ())
    (hok : ∀ x ∈ walk, (summarise_commit repo odbf config x).isOk = true) :
    ∃ gl ds, log (Except.ok repo) (some config) = Except.ok (gl, ds) ∧
      gl.entries = walk.filterMap (walkedCommitEntry repo odbf config) ∧
      gl.entries.length = walk.countP (isWalkedCommit odbf) ∧
      (∀ x ∈ walk, isWalkedCommit odbf x = false →
        ∃ oid kind, x = Except.ok oid ∧ odbf oid = Except.ok kind ∧
          summarise_commit repo odbf config x =
            Except.ok (none, ["ignoring object type: " ++ objectTypeStr kind])) := by
  rcases collectResults_isOk hok with ⟨rs, hrs⟩
  refine ⟨⟨rs.filterMap Prod.fst⟩,
    ["work dir: " ++ (match repo.workdir with
      | some w => w
      | none => "bare repository - no workdir")] ++ (rs.map Prod.snd).flatten,
    ?_, ?_, ?_, ?_⟩
  · simp only [log, Bind.bind, Except.bind, hodb, hwalk, hpush, hrs, Option.getD]
  · exact collectResults_ok_entries hrs
  · rw [collectResults_ok_entries hrs]
    exact entries_count hok
  · intro x hx hnc
    have hxok := hok x hx
    cases x with
    | error e => simp [summarise_commit, Bind.bind, Except.bind, Except.isOk, Except.toBool] at hxok
    | ok oid =>
      cases hk : odbf oid with
      | error e =>
        simp [summarise_commit, Bind.bind, Except.bind, hk, Except.isOk, Except.toBool] at hxok
      | ok kind =>
        refine ⟨oid, kind, rfl, hk, ?_⟩
        cases kind with
        | Commit => simp [isWalkedCommit, hk] at hnc
        | Any => simp [summarise_commit, Bind.bind, Except.bind, hk, objectTypeStr]
        | Bad => simp [summarise_commit, Bind.bind, Except.bind, hk, objectTypeStr]
        | Tree => simp [summarise_commit, Bind.bind, Except.bind, hk, objectTypeStr]
        | Blob => simp [summarise_commit, Bind.bind, Except.bind, hk, objectTypeStr]
        | Tag => simp [summarise_commit, Bind.bind, Except.bind, hk, objectTypeStr]

/-- Witness for C4: a walk emitting one commit and one annotated tag
yields a one-entry log. -/
theorem log_entry_count_matches_commits_witness :
    walkRepo.odb = Except.ok walkOdb ∧
    walkRepo.revwalk = Except.ok [Except.ok "c1", Except.ok "tag1"] ∧
    walkRepo.push_head = Except.ok () ∧
    (∀ x ∈ [Except.ok "c1", Except.ok (ε := String) "tag1"],
      (summarise_commit walkRepo walkOdb ⟨false⟩ x).isOk = true) ∧
    (∃ gl ds, log (Except.ok walkRepo) (some ⟨false⟩) = Except.ok (gl, ds) ∧
      gl.entries = [Except.ok "c1", Except.ok "tag1"].filterMap
        (walkedCommitEntry walkRepo walkOdb ⟨false⟩) ∧
      gl.entries.length = [Except.ok "c1", Except.ok "tag1"].countP (isWalkedCommit walkOdb) ∧
      (∀ x ∈ [Except.ok "c1", Except.ok (ε := String) "tag1"],
        isWalkedCommit walkOdb x = false →
        ∃ oid kind, x = Except.ok oid ∧ walkOdb oid = Except.ok kind ∧
          summarise_commit walkRepo walkOdb ⟨false⟩ x =
            Except.ok (none, ["ignoring object type: " ++ objectTypeStr kind]))) := by
  refine ⟨rfl, rfl, rfl, by decide, ?_⟩
  exact log_entry_count_matches_commits walkRepo walkOdb ⟨false⟩
    [Except.ok "c1", Except.ok "tag1"] rfl rfl rfl (by decide)

/-- C9: mining is all-or-nothing — every run either fails with an error
and produces no log, or succeeds with the full log covering every walked
oid. -/
theorem log_all_or_nothing (repoRes : Except String Repo) (config : Option GitLogConfig) :
    (∃ e, log repoRes config = Except.error e) ∨
    (∃ repo odbf walk gl ds, repoRes = Except.ok repo ∧ repo.odb = Except.ok odbf ∧
      repo.revwalk = Except.ok walk ∧
      log repoRes config = Except.ok (gl, ds) ∧
      gl.entries = walk.filterMap
        (walkedCommitEntry repo odbf (config.getD DEFAULT_GIT_LOG_CONFIG))) := by
  cases repoRes with
  | error e => exact Or.inl ⟨e, rfl⟩
  | ok repo =>
    cases hodb : repo.odb with
    | error e =>
      exact Or.inl ⟨e, by simp [log, Bind.bind, Except.bind, hodb]⟩
    | ok odbf =>
      cases hwalk : repo.revwalk with
      | error e =>
        exact Or.inl ⟨e, by simp [log, Bind.bind, Except.bind, hodb, hwalk]⟩
      | ok walk =>
        cases hpush : repo.push_head with
        | error e =>
          exact Or.inl ⟨e, by simp [log, Bind.bind, Except.bind, hodb, hwalk, hpush]⟩
        | ok u =>
          cases hcr : collectResults
              (summarise_commit repo odbf (config.getD DEFAULT_GIT_LOG_CONFIG)) walk with
          | error e =>
            exact Or.inl ⟨e, by simp [log, Bind.bind, Except.bind, hodb, hwalk, hpush, hcr]⟩
          | ok rs =>
            refine Or.inr ⟨repo, odbf, walk, ⟨rs.filterMap Prod.fst⟩,
              ["work dir: " ++ (match repo.workdir with
                | some w => w
                | none => "bare repository - no workdir")] ++ (rs.map Prod.snd).flatten,
              rfl, hodb, hwalk, ?_, collectResults_ok_entries hcr⟩
            cases u
            simp only [log, Bind.bind, Except.bind, hodb, hwalk, hpush, hcr]

/-! ## C5: the co-author three-tier policy

The equivalence between the source's reversed scan (`angleSplit` /
`srcAngle`) and the declarative greedy matcher (`specAngle`) is proved
by an invariant induction over the scan. -/

/-- Pointwise equal functions find the same first result. -/
theorem findSome?_congr_mem {α β : Type} {f g : α → Option β} :
    ∀ {l : List α}, (∀ x ∈ l, f x = g x) → l.findSome? f = l.findSome? g := by
  intro l h
  induction l with
  | nil => rfl
  | cons x xs ih =>
    have hx := h x (List.mem_cons_self _ _)
    cases hgx : g x with
    | some b => simp [List.findSome?_cons, hx, hgx]
    | none =>
      simp [List.findSome?_cons, hx, hgx,
        ih (fun y hy => h y (List.mem_cons_of_mem _ hy))]

/-- Descending search skips a top region of failing positions. -/
theorem findSome?_range_descend {β : Type} (f : Nat → Option β) :
    ∀ (n m : Nat), m ≤ n → (∀ j, m ≤ j → j < n → f j = none) →
    ((List.range n).reverse).findSome? f = ((List.range m).reverse).findSome? f := by
  intro n
  induction n with
  | zero =>
    intro m hm _
    have : m = 0 := Nat.le_zero.mp hm
    subst this
    rfl
  | succ n ih =>
    intro m hm hnone
    rcases Nat.eq_or_lt_of_le hm with heq | hlt
    · subst heq; rfl
    · have hmn : m ≤ n := Nat.lt_succ_iff.mp hlt
      rw [List.range_succ]
      simp only [List.reverse_append, List.reverse_cons, List.reverse_nil, List.nil_append,
        List.singleton_append]
      simp only [List.findSome?_cons, hnone n hmn (Nat.lt_succ_self n)]
      exact ih m hmn (fun j h1 h2 => hnone j h1 (Nat.lt_succ_of_lt h2))

/-- With the final closing bracket appended, interior positions test
exactly the core decomposition. -/
theorem specAngleAt_append_gt {core : List Char} {j : Nat} (hj : j < core.length) :
    specAngleAt (core ++ ['>']) j = coreAngleAt core j := by
  have hdrop : (core ++ ['>']).drop j = core.drop j ++ ['>'] :=
    List.drop_append_of_le_length (Nat.le_of_lt hj)
  have htake : (core ++ ['>']).take j = core.take j :=
    List.take_append_of_le_length (Nat.le_of_lt hj)
  cases hc : core.drop j with
  | nil => exact absurd (List.drop_eq_nil_iff.mp hc) (Nat.not_le_of_lt hj)
  | cons d rest =>
    simp only [specAngleAt, coreAngleAt, hdrop, hc, List.cons_append]
    by_cases hd : d = '<'
    · simp only [if_pos hd]
      have hrev : (rest ++ ['>']).reverse = '>' :: rest.reverse := by simp
      rw [hrev]
      simp only [if_pos rfl]
      by_cases hcond : rest = [] ∨ '>' ∈ rest
      · have hcond' : rest.reverse = [] ∨ '>' ∈ rest.reverse := by
          rcases hcond with h | h
          · exact Or.inl (by simp [h])
          · exact Or.inr (by simp [h])
        rw [if_pos hcond', if_pos hcond]
        simp
      · have hcond' : ¬(rest.reverse = [] ∨ '>' ∈ rest.reverse) := by
          simp only [List.reverse_eq_nil_iff, List.mem_reverse]
          exact hcond
        rw [if_neg hcond', if_neg hcond, htake]
        simp
    · simp [hd]

/-- The position of the final closing bracket itself never matches. -/
theorem specAngleAt_at_end (core : List Char) :
    specAngleAt (core ++ ['>']) core.length = none := by
  have hdrop : (core ++ ['>']).drop core.length = ['>'] := List.drop_left' rfl
  simp [specAngleAt, hdrop]

/-- A text not ending with a closing bracket matches at no position. -/
theorem specAngleAt_not_gt {X : List Char} {c : Char} (hc : c ≠ '>') (j : Nat) :
    specAngleAt (X ++ [c]) j = none := by
  rcases Nat.lt_trichotomy j X.length with hlt | heq | hgt
  · have hdrop : (X ++ [c]).drop j = X.drop j ++ [c] :=
      List.drop_append_of_le_length (Nat.le_of_lt hlt)
    cases hx : X.drop j with
    | nil => exact absurd (List.drop_eq_nil_iff.mp hx) (Nat.not_le_of_lt hlt)
    | cons d t =>
      simp only [specAngleAt, hdrop, hx, List.cons_append]
      by_cases hd : d = '<'
      · simp only [if_pos hd]
        have hrev : (t ++ [c]).reverse = c :: t.reverse := by simp
        rw [hrev]
        simp [hc]
      · simp [hd]
  · subst heq
    have hdrop : (X ++ [c]).drop X.length = [c] := List.drop_left' rfl
    simp only [specAngleAt, hdrop]
    by_cases hd : c = '<'
    · simp [hd]
    · simp [hd]
  · have hlen : (X ++ [c]).length ≤ j := by
      simp only [List.length_append, List.length_cons, List.length_nil]
      omega
    simp [specAngleAt, List.drop_eq_nil_iff.mpr hlen]

/-- Positions inside an invariant-respecting accumulator never match. -/
theorem coreAngleAt_acc_none {X acc : List Char} (hInv : accInv acc) (k : Nat) :
    coreAngleAt (X ++ acc) (X.length + k) = none := by
  have hdrop : (X ++ acc).drop (X.length + k) = acc.drop k := List.drop_append k
  cases ha : acc.drop k with
  | nil => simp [coreAngleAt, hdrop, ha]
  | cons d rest =>
    by_cases hd : d = '<'
    · subst hd
      have hrest : rest = [] := hInv.2 k rest ha
      simp [coreAngleAt, hdrop, ha, hrest]
    · simp [coreAngleAt, hdrop, ha, hd]

/-- The reversed scan of the source equals the greedy declarative search
over the core (text with the final closing bracket removed). -/
theorem angleSplit_eq_findSome :
    ∀ (rcore acc : List Char), accInv acc →
    angleSplit acc rcore =
      ((List.range (rcore.reverse ++ acc).length).reverse).findSome?
        (coreAngleAt (rcore.reverse ++ acc)) := by
  intro rcore
  induction rcore with
  | nil =>
    intro acc hInv
    simp only [angleSplit, List.reverse_nil, List.nil_append]
    symm
    rw [List.findSome?_eq_none_iff]
    intro j _
    have h0 : coreAngleAt ([] ++ acc) (List.length ([] : List Char) + j) = none :=
      coreAngleAt_acc_none hInv j
    simpa using h0
  | cons c rest ih =>
    intro acc hInv
    by_cases hgtc : c = '>'
    · subst hgtc
      have hLHS : angleSplit acc ('>' :: rest) = none := by simp [angleSplit]
      rw [hLHS]
      symm
      rw [List.findSome?_eq_none_iff]
      intro j _
      simp only [List.reverse_cons, List.append_assoc, List.singleton_append]
      rcases Nat.lt_trichotomy j rest.length with hlt | heq | hgt2
      · have hdrop : (rest.reverse ++ '>' :: acc).drop j = rest.reverse.drop j ++ '>' :: acc :=
          List.drop_append_of_le_length (by simpa using Nat.le_of_lt hlt)
        cases hx : rest.reverse.drop j with
        | nil =>
          exfalso
          have := List.drop_eq_nil_iff.mp hx
          simp only [List.length_reverse] at this
          omega
        | cons d t =>
          simp only [coreAngleAt, hdrop, hx, List.cons_append]
          by_cases hd : d = '<'
          · simp [hd]
          · simp [hd]
      · subst heq
        have hdrop : (rest.reverse ++ '>' :: acc).drop rest.length = '>' :: acc :=
          List.drop_left' (by simp)
        simp [coreAngleAt, hdrop]
      · obtain ⟨k, rfl⟩ : ∃ k, j = rest.length + 1 + k := ⟨j - rest.length - 1, by omega⟩
        have hassoc : rest.reverse ++ '>' :: acc = (rest.reverse ++ ['>']) ++ acc := by simp
        have h0 := coreAngleAt_acc_none (X := rest.reverse ++ ['>']) hInv k
        have hlen2 : (rest.reverse ++ ['>']).length = rest.length + 1 := by simp
        rw [hlen2] at h0
        rw [hassoc]
        exact h0
    · by_cases hltc : c = '<'
      · subst hltc
        by_cases hacc : acc = []
        · subst hacc
          have hstep : angleSplit [] ('<' :: rest) = angleSplit ['<'] rest := by
            simp [angleSplit]
          have hInv' : accInv ['<'] := by
            refine ⟨by simp, ?_⟩
            intro k b hk
            cases k with
            | zero =>
              simp only [List.drop_zero] at hk
              injection hk with h1 h2
              exact h2.symm
            | succ k' => simp at hk
          rw [hstep, ih ['<'] hInv']
          simp
        · have hLHS : angleSplit acc ('<' :: rest) = some (rest.reverse, acc) := by
            simp [angleSplit, hacc]
          rw [hLHS]
          symm
          have hcore : ('<' :: rest).reverse ++ acc = rest.reverse ++ '<' :: acc := by simp
          rw [hcore]
          have hlen : (rest.reverse ++ '<' :: acc).length = rest.length + 1 + acc.length := by
            simp only [List.length_append, List.length_reverse, List.length_cons]
            omega
          rw [hlen]
          have hnone : ∀ j, rest.length + 1 ≤ j → j < rest.length + 1 + acc.length →
              coreAngleAt (rest.reverse ++ '<' :: acc) j = none := by
            intro j h1 _
            obtain ⟨k, rfl⟩ : ∃ k, j = rest.length + 1 + k := ⟨j - rest.length - 1, by omega⟩
            have hassoc : rest.reverse ++ '<' :: acc = (rest.reverse ++ ['<']) ++ acc := by simp
            have h0 := coreAngleAt_acc_none (X := rest.reverse ++ ['<']) hInv k
            have hlen2 : (rest.reverse ++ ['<']).length = rest.length + 1 := by simp
            rw [hlen2] at h0
            rw [hassoc]
            exact h0
          rw [findSome?_range_descend _ (rest.length + 1 + acc.length) (rest.length + 1)
            (by omega) hnone]
          rw [List.range_succ]
          simp only [List.reverse_append, List.reverse_cons, List.reverse_nil, List.nil_append,
            List.singleton_append]
          rw [List.findSome?_cons]
          have hpos : coreAngleAt (rest.reverse ++ '<' :: acc) rest.length =
              some (rest.reverse, acc) := by
            have hdrop : (rest.reverse ++ '<' :: acc).drop rest.length = '<' :: acc :=
              List.drop_left' (by simp)
            have htake : (rest.reverse ++ '<' :: acc).take rest.length = rest.reverse :=
              List.take_left' (by simp)
            have hcond : ¬(acc = [] ∨ '>' ∈ acc) := by
              rintro (h | h)
              · exact hacc h
              · exact hInv.1 h
            simp [coreAngleAt, hdrop, htake, hcond]
          rw [hpos]
      · have hstep : angleSplit acc (c :: rest) = angleSplit (c :: acc) rest := by
          simp [angleSplit, hgtc, hltc]
        have hInv' : accInv (c :: acc) := by
          constructor
          · intro hmem
            rcases List.mem_cons.mp hmem with h | h
            · exact hgtc h.symm
            · exact hInv.1 h
          · intro k b hk
            cases k with
            | zero =>
              simp only [List.drop_zero] at hk
              injection hk with h1 h2
              exact absurd h1 hltc
            | succ k' => exact hInv.2 k' b (by simpa using hk)
        rw [hstep, ih (c :: acc) hInv']
        simp

/-- The source angle-bracket matcher equals the declarative greedy
matcher. -/
theorem srcAngle_eq_specAngle (cs : List Char) : srcAngle cs = specAngle cs := by
  cases h : cs.reverse with
  | nil =>
    have hcs : cs = [] := by simpa using congrArg List.reverse h
    subst hcs
    rfl
  | cons c rcore =>
    have hcs : cs = rcore.reverse ++ [c] := by
      have h2 := congrArg List.reverse h
      simpa [List.reverse_cons] using h2
    simp only [srcAngle, h]
    by_cases hc : c = '>'
    · subst hc
      simp only [beq_self_eq_true, if_true]
      have hmain := angleSplit_eq_findSome rcore []
        ⟨by simp, by intro k b hk; simp at hk⟩
      simp only [List.append_nil, List.length_reverse] at hmain
      rw [hmain]
      unfold specAngle
      rw [hcs]
      have hlen : (rcore.reverse ++ ['>']).length = rcore.length + 1 := by simp
      rw [hlen, List.range_succ]
      simp only [List.reverse_append, List.reverse_cons, List.reverse_nil, List.nil_append,
        List.singleton_append]
      rw [List.findSome?_cons]
      have hend := specAngleAt_at_end rcore.reverse
      rw [List.length_reverse] at hend
      simp only [hend]
      symm
      apply findSome?_congr_mem
      intro j hj
      have hjlt : j < rcore.length := by
        have := List.mem_range.mp (List.mem_reverse.mp hj)
        exact this
      exact specAngleAt_append_gt (by simpa using hjlt)
    · rw [if_neg (by simp [hc])]
      symm
      unfold specAngle
      rw [List.findSome?_eq_none_iff]
      intro j _
      rw [hcs]
      exact specAngleAt_not_gt hc j

/-- C5 counterexample: a trailer whose rest carries trailing whitespace
after the closing bracket takes tier (b) in the code (the angle regex is
applied to the untrimmed rest and requires the closing bracket to end
it), while the claim predicts tier (a). -/
theorem coauthor_trailing_ws_counterexample :
    find_coauthors "Co-authored-by: valid user <valid@thing.com> " =
      [User.new "" "valid user <valid@thing.com>"] ∧
    find_coauthors_claimed "Co-authored-by: valid user <valid@thing.com> " =
      [User.new "valid user" "valid@thing.com"] ∧
    find_coauthors "Co-authored-by: valid user <valid@thing.com> " ≠
      find_coauthors_claimed "Co-authored-by: valid user <valid@thing.com> " := by
  refine ⟨by decide, by decide, by decide⟩

/-- C5 amended: the parser applies the three tiers with the
angle-bracket test on the raw (untrimmed) rest — so a rest with trailing
whitespace after the closing bracket falls through to tiers (b)/(c) —
trimming the captured pieces, in order of appearance, without
deduplication. -/
theorem coauthor_tiers_amended (message : String) :
    find_coauthors message = find_coauthors_amended message := by
  unfold find_coauthors find_coauthors_amended
  simp only [srcAngle_eq_specAngle]

end Lati
